import Mathlib

/-!
Verification of the asynchronous batch media pipeline of this repository:
pause detection, timing remap, media trimming, job submission/polling and
the error-classification rules of `poll_workflow_result`.

Times are modelled as rationals (seconds); machine strings as Lean `String`.
-/

namespace PipelineVerif

/-! ### String helpers (Python `keyword in msg.lower()` semantics) -/

/-- Test whether the character list `n` starts the character list `h`. -/
def seqLead : List Char → List Char → Bool
  | [], _ => true
  | _ :: _, [] => false
  | a :: as, b :: bs => a == b && seqLead as bs

/-- Test whether `needle` occurs as a contiguous subsequence of the haystack,
mirroring Python's `n in h` on strings. -/
def seqContains (needle : List Char) : List Char → Bool
  | [] => seqLead needle []
  | b :: bs => seqLead needle (b :: bs) || seqContains needle bs

/-- Character list of `s` lower-cased, mirroring Python's `s.lower()`. -/
def lowerChars (s : String) : List Char := s.data.map Char.toLower

/-! ### Poll-result error classification

Embedded from the `poll_workflow_result` excerpts in
`src/error_handling_improvements.md`: the Failed-status branch checks only the
error code against two fatal codes; the API-call-failure branch and the
transport-exception branch match keywords on the lower-cased message. -/

/-- Error codes that terminate polling at once in the `Failed`-status branch. -/
def fatalErrorCodes : List String := ["720701002", "720701001"]

/-- Keywords that terminate polling in the API-call-failure branch. -/
def fatalMsgKeywords : List String := ["timeout", "timed out", "access plugin", "server error"]

/-- Keywords that terminate polling in the transport-exception branch. -/
def requestExcKeywords : List String := ["timeout", "timed out", "connection", "network"]

/-- Outcome of one branch of `poll_workflow_result`: terminate polling
(`return None`) or keep polling / retry (`continue`). -/
inductive PollAction where
  | terminate
  | keepPolling
deriving DecidableEq, Repr

/-- Branch for `execute_status == "Failed"`: only the error code is inspected;
the message is read but does not influence the decision. -/
def handleFailedStatus (error_code : String) (error_message : String) : PollAction :=
  let _ := error_message
  if fatalErrorCodes.contains error_code then .terminate else .keepPolling

/-- Python `any(keyword in error_msg.lower() for keyword in [...])` for the
API-call-failure branch. -/
def msgHasFatalKeyword (msg : String) : Bool :=
  fatalMsgKeywords.any (fun k => seqContains k.data (lowerChars msg))

/-- API-call-failure branch: fatal keyword in the lower-cased message
terminates polling, anything else keeps retrying. -/
def handleApiFailure (msg : String) : PollAction :=
  if msgHasFatalKeyword msg then .terminate else .keepPolling

/-- Python `any(keyword in error_str for keyword in [...])` for the
`requests.exceptions.RequestException` branch. -/
def excHasFatalKeyword (e : String) : Bool :=
  requestExcKeywords.any (fun k => seqContains k.data (lowerChars e))

/-- Transport-exception branch: timeout/connection/network keywords in the
lower-cased exception text terminate polling immediately. -/
def handleRequestException (e : String) : PollAction :=
  if excHasFatalKeyword e then .terminate else .keepPolling

/-! ### Data model: cues, pause intervals, remap entries (spec §3) -/

/-- A transcription cue `{text, start_time, end_time}` in seconds. -/
structure Cue where
  text : String
  start_time : ℚ
  end_time : ℚ
deriving DecidableEq, Repr

/-- A contiguous span of silence to remove. -/
structure PauseInterval where
  pstart : ℚ
  pend : ℚ
deriving DecidableEq, Repr

/-- Duration of a pause interval. -/
def PauseInterval.len (p : PauseInterval) : ℚ := p.pend - p.pstart

/-- Per-cue remap record `{original_start, original_end, new_start, new_end}`. -/
structure RemapEntry where
  original_start : ℚ
  original_end : ℚ
  new_start : ℚ
  new_end : ℚ
deriving DecidableEq, Repr

/-- Cues are ordered and non-overlapping: each cue ends no later than any
later cue starts. -/
def CuesSorted (cs : List Cue) : Prop :=
  cs.Pairwise (fun a b => a.end_time ≤ b.start_time)

/-- Each cue sits at a non-negative time and does not end before it starts. -/
def CuesValid (cs : List Cue) : Prop :=
  ∀ c ∈ cs, 0 ≤ c.start_time ∧ c.start_time ≤ c.end_time

/-- All pause intervals start at or after `lo` and are non-degenerate. -/
def PausesFrom (lo : ℚ) (ps : List PauseInterval) : Prop :=
  ∀ p ∈ ps, lo ≤ p.pstart ∧ p.pstart < p.pend

/-- The pause set is disjoint and sorted by start. -/
def PausesSorted (ps : List PauseInterval) : Prop :=
  ps.Pairwise (fun a b => a.pend ≤ b.pstart)

/-! ### PauseDetector -/

/-- Modelled from the spec: the contract `PauseDetector.detect` — the Python implementation
(`detect_pauses_from_asr` of the workflow component) is not under `src/`, only
design documents that describe it. Walks adjacent cue boundaries; a gap
`g = next.start_time - prev.end_time` becomes a `PauseInterval`
`{prev.end_time, next.start_time}` iff `g >= min_pause_duration`; leading and
trailing silence are never produced because only adjacent pairs are visited. -/
def detectPauses (minPause : ℚ) : List Cue → List PauseInterval
  | [] => []
  | [_] => []
  | p :: n :: rest =>
    (if n.start_time - p.end_time ≥ minPause
      then [PauseInterval.mk p.end_time n.start_time] else [])
      ++ detectPauses minPause (n :: rest)

/-! ### TimingRemapper -/

/-- Modelled from the spec: the per-interval contribution to `removed_before`
of `_adjust_subtitle_timings`, whose Python source is not under `src/` — the
full duration of an interval that ends at or before `t`, the portion up to `t`
of an interval overlapping `t`, and nothing for an interval starting after `t`. -/
def pauseRemovedAt (t : ℚ) (p : PauseInterval) : ℚ :=
  if p.pend ≤ t then p.pend - p.pstart
  else if p.pstart ≤ t then t - p.pstart
  else 0

/-- Modelled from the spec: the quantity `removed_before` — the total pause time removed
strictly before timeline point `t`. -/
def removedBefore (t : ℚ) (ps : List PauseInterval) : ℚ :=
  (ps.map (pauseRemovedAt t)).sum

/-- Modelled from the spec: one cue's remap entry — new start/end are
`original - removed_before`, with the new start clamped to be `>= 0`. -/
def remapCue (ps : List PauseInterval) (c : Cue) : RemapEntry :=
  { original_start := c.start_time
    original_end := c.end_time
    new_start := max 0 (c.start_time - removedBefore c.start_time ps)
    new_end := c.end_time - removedBefore c.start_time ps }

/-- Modelled from the spec: the raw remap result, one entry per cue. -/
def remapEntries (cues : List Cue) (ps : List PauseInterval) : List RemapEntry :=
  cues.map (remapCue ps)

/-- Executable check that the new start times are monotonically non-decreasing. -/
def monotoneStarts : List RemapEntry → Bool
  | [] => true
  | [_] => true
  | a :: b :: rest => (decide (a.new_start ≤ b.new_start)) && monotoneStarts (b :: rest)

/-- The only failure of the timing remapper. -/
inductive RemapError where
  | TimingInversionError
deriving DecidableEq, Repr

/-- Modelled from the spec: the contract `TimingRemapper.remap` — computes the entries and
fails fast with `TimingInversionError` when a malformed pause set would invert
two cues, rather than returning a silently reordered list. -/
def remap (cues : List Cue) (ps : List PauseInterval) : Except RemapError (List RemapEntry) :=
  if monotoneStarts (remapEntries cues ps) then .ok (remapEntries cues ps)
  else .error .TimingInversionError

/-! ### Arithmetic facts about `pauseRemovedAt` and `removedBefore` -/

lemma pauseRemovedAt_nonneg (t : ℚ) (p : PauseInterval) (hp : p.pstart < p.pend) :
    0 ≤ pauseRemovedAt t p := by
  unfold pauseRemovedAt
  split_ifs <;> linarith

lemma pauseRemovedAt_of_le (t : ℚ) (p : PauseInterval) (hp : p.pstart < p.pend)
    (h : t ≤ p.pstart) : pauseRemovedAt t p = 0 := by
  unfold pauseRemovedAt
  split_ifs <;> linarith

lemma pauseRemovedAt_mono (p : PauseInterval) (hp : p.pstart < p.pend)
    {a b : ℚ} (hab : a ≤ b) : pauseRemovedAt a p ≤ pauseRemovedAt b p := by
  unfold pauseRemovedAt
  split_ifs <;> linarith

lemma pauseRemovedAt_lipschitz (p : PauseInterval) (hp : p.pstart < p.pend)
    {a b : ℚ} (hab : a ≤ b) :
    pauseRemovedAt b p ≤ pauseRemovedAt a p + (b - a) := by
  unfold pauseRemovedAt
  split_ifs <;> linarith

lemma removedBefore_nil (t : ℚ) : removedBefore t [] = 0 := rfl

lemma removedBefore_cons (t : ℚ) (p : PauseInterval) (ps : List PauseInterval) :
    removedBefore t (p :: ps) = pauseRemovedAt t p + removedBefore t ps := by
  simp [removedBefore]

lemma removedBefore_nonneg (t : ℚ) (ps : List PauseInterval)
    (hp : ∀ p ∈ ps, p.pstart < p.pend) : 0 ≤ removedBefore t ps := by
  induction ps with
  | nil => simp [removedBefore_nil]
  | cons q qs ih =>
    rw [removedBefore_cons]
    have h1 := pauseRemovedAt_nonneg t q (hp q (by simp))
    have h2 := ih (fun p hm => hp p (by simp [hm]))
    linarith

lemma removedBefore_eq_zero (t : ℚ) (ps : List PauseInterval)
    (hp : ∀ p ∈ ps, t ≤ p.pstart ∧ p.pstart < p.pend) : removedBefore t ps = 0 := by
  induction ps with
  | nil => simp [removedBefore_nil]
  | cons q qs ih =>
    rw [removedBefore_cons]
    rw [pauseRemovedAt_of_le t q (hp q (by simp)).2 (hp q (by simp)).1]
    rw [ih (fun p hm => hp p (by simp [hm]))]
    ring

lemma removedBefore_mono (ps : List PauseInterval)
    (hp : ∀ p ∈ ps, p.pstart < p.pend) {a b : ℚ} (hab : a ≤ b) :
    removedBefore a ps ≤ removedBefore b ps := by
  induction ps with
  | nil => simp [removedBefore_nil]
  | cons q qs ih =>
    rw [removedBefore_cons, removedBefore_cons]
    have h1 := pauseRemovedAt_mono q (hp q (by simp)) hab
    have h2 := ih (fun p hm => hp p (by simp [hm]))
    linarith

/-- Disjoint sorted pauses lying in `[c, ∞)` cannot remove more than
`max 0 (t - c)` of timeline before `t`. -/
lemma removedBefore_le (t c : ℚ) (ps : List PauseInterval)
    (hfrom : PausesFrom c ps) (hs : PausesSorted ps) :
    removedBefore t ps ≤ max 0 (t - c) := by
  induction ps generalizing c with
  | nil =>
    rw [removedBefore_nil]
    exact le_max_left _ _
  | cons q qs ih =>
    rw [removedBefore_cons]
    have hq := hfrom q (by simp)
    have hqs : PausesFrom q.pend qs := by
      intro p hm
      exact ⟨(List.pairwise_cons.mp hs).1 p hm, (hfrom p (by simp [hm])).2⟩
    have hqss : PausesSorted qs := (List.pairwise_cons.mp hs).2
    have hrec := ih q.pend hqs hqss
    rcases le_total t q.pend with h1 | h1
    · have hz : removedBefore t qs ≤ 0 := by
        rwa [max_eq_left (by linarith)] at hrec
      have hpa : pauseRemovedAt t q ≤ max 0 (t - c) := by
        rcases le_total 0 (t - c) with h2 | h2
        · rw [max_eq_right h2]
          unfold pauseRemovedAt
          split_ifs <;> linarith [hq.1, hq.2]
        · rw [max_eq_left h2]
          rw [pauseRemovedAt_of_le t q hq.2 (by linarith [hq.1])]
      linarith
    · have hz : removedBefore t qs ≤ t - q.pend := by
        rwa [max_eq_right (by linarith)] at hrec
      have hpa : pauseRemovedAt t q = q.pend - q.pstart := by
        unfold pauseRemovedAt
        split_ifs <;> linarith [hq.2]
      rw [hpa, max_eq_right (by linarith [hq.1, hq.2] : (0:ℚ) ≤ t - c)]
      linarith [hq.1]

/-- Disjointness makes `removedBefore` 1-Lipschitz: moving the cut point from
`a` to `b` removes at most `b - a` more timeline. -/
lemma removedBefore_lipschitz (ps : List PauseInterval) {c a b : ℚ}
    (hfrom : PausesFrom c ps) (hs : PausesSorted ps) (hab : a ≤ b) :
    removedBefore b ps ≤ removedBefore a ps + (b - a) := by
  induction ps generalizing c with
  | nil =>
    rw [removedBefore_nil, removedBefore_nil]
    linarith
  | cons q qs ih =>
    have hq := hfrom q (by simp)
    have hqs : PausesFrom q.pend qs := by
      intro p hm
      exact ⟨(List.pairwise_cons.mp hs).1 p hm, (hfrom p (by simp [hm])).2⟩
    have hqss : PausesSorted qs := (List.pairwise_cons.mp hs).2
    rw [removedBefore_cons, removedBefore_cons]
    rcases le_or_lt b q.pend with hbe | hbe
    · have hza : removedBefore a qs = 0 :=
        removedBefore_eq_zero a qs (fun p hm => ⟨by linarith [(hqs p hm).1], (hqs p hm).2⟩)
      have hzb : removedBefore b qs = 0 :=
        removedBefore_eq_zero b qs (fun p hm => ⟨by linarith [(hqs p hm).1], (hqs p hm).2⟩)
      rw [hza, hzb]
      have := pauseRemovedAt_lipschitz q hq.2 hab
      linarith
    · rcases le_or_lt q.pend a with hea | hea
      · have h1 : pauseRemovedAt a q = q.pend - q.pstart := by
          unfold pauseRemovedAt
          split_ifs <;> linarith
        have h2 : pauseRemovedAt b q = q.pend - q.pstart := by
          unfold pauseRemovedAt
          split_ifs <;> linarith
        have h3 := ih hqs hqss
        rw [h1, h2]
        linarith
      · -- a < q.pend < b : the head interval finishes between the two points
        have h2 : pauseRemovedAt b q = q.pend - q.pstart := by
          unfold pauseRemovedAt
          split_ifs <;> linarith
        have h1 : pauseRemovedAt q.pend q ≤ pauseRemovedAt a q + (q.pend - a) :=
          pauseRemovedAt_lipschitz q hq.2 (by linarith)
        have h1e : pauseRemovedAt q.pend q = q.pend - q.pstart := by
          unfold pauseRemovedAt
          split_ifs <;> linarith
        have hza : removedBefore a qs = 0 :=
          removedBefore_eq_zero a qs (fun p hm => ⟨by linarith [(hqs p hm).1], (hqs p hm).2⟩)
        have hzb : removedBefore b qs ≤ max 0 (b - q.pend) :=
          removedBefore_le b q.pend qs hqs hqss
        rw [max_eq_right (by linarith)] at hzb
        rw [h2, hza]
        linarith

/-! ### Structure of the detector's output -/

/-- The detector is exactly a filter-map over the list of adjacent cue pairs. -/
lemma detectPauses_eq_filterMap (d : ℚ) (cs : List Cue) :
    detectPauses d cs
      = (cs.zip cs.tail).filterMap
          (fun q => if q.2.start_time - q.1.end_time ≥ d
            then some (PauseInterval.mk q.1.end_time q.2.start_time) else none) := by
  induction cs with
  | nil => rfl
  | cons c tail ih =>
    cases tail with
    | nil => rfl
    | cons n rest =>
      rw [detectPauses, ih]
      simp only [List.zip_cons_cons, List.tail_cons, List.filterMap_cons]
      split_ifs <;> simp

/-- Every produced interval starts no earlier than the first cue ends. -/
lemma detect_pstart_lb (d : ℚ) (c : Cue) (rest : List Cue)
    (hs : CuesSorted (c :: rest)) (hv : CuesValid (c :: rest)) :
    ∀ iv ∈ detectPauses d (c :: rest), c.end_time ≤ iv.pstart := by
  induction rest generalizing c with
  | nil =>
    intro iv hm
    simp [detectPauses] at hm
  | cons n rest ih =>
    intro iv hm
    rw [detectPauses] at hm
    rcases List.mem_append.mp hm with h1 | h2
    · split_ifs at h1 with hcond
      · rcases List.mem_singleton.mp h1 with rfl
        simp
      · simp at h1
    · have hcn : c.end_time ≤ n.start_time := (List.pairwise_cons.mp hs).1 n (by simp)
      have hnn : n.start_time ≤ n.end_time := (hv n (by simp)).2
      have htail := ih n (List.pairwise_cons.mp hs).2 (fun x hx => hv x (by simp [hx])) iv h2
      linarith

/-- In a sorted valid cue list, the head starts no later than the last cue. -/
lemma cue_start_le_getLast (c : Cue) (rest : List Cue)
    (hs : CuesSorted (c :: rest)) (hv : CuesValid (c :: rest)) :
    c.start_time ≤ ((c :: rest).getLast (by simp)).start_time := by
  induction rest generalizing c with
  | nil => simp
  | cons n rest ih =>
    have h1 : c.start_time ≤ n.start_time :=
      le_trans (hv c (by simp)).2 ((List.pairwise_cons.mp hs).1 n (by simp))
    have h2 := ih n (List.pairwise_cons.mp hs).2 (fun x hx => hv x (by simp [hx]))
    rw [List.getLast_cons (by simp)]
    linarith

/-- Every produced interval ends no later than the last cue starts. -/
lemma detect_pend_ub (d : ℚ) (c : Cue) (rest : List Cue)
    (hs : CuesSorted (c :: rest)) (hv : CuesValid (c :: rest)) :
    ∀ iv ∈ detectPauses d (c :: rest),
      iv.pend ≤ ((c :: rest).getLast (by simp)).start_time := by
  induction rest generalizing c with
  | nil =>
    intro iv hm
    simp [detectPauses] at hm
  | cons n rest ih =>
    intro iv hm
    rw [detectPauses] at hm
    have hts : CuesSorted (n :: rest) := (List.pairwise_cons.mp hs).2
    have htv : CuesValid (n :: rest) := fun x hx => hv x (by simp [hx])
    rw [List.getLast_cons (by simp)]
    rcases List.mem_append.mp hm with h1 | h2
    · split_ifs at h1 with hcond
      · rcases List.mem_singleton.mp h1 with rfl
        simpa using cue_start_le_getLast n rest hts htv
      · simp at h1
    · exact ih n hts htv iv h2

/-- The detector's output is sorted by interval start. -/
lemma detect_sorted (d : ℚ) (cs : List Cue)
    (hs : CuesSorted cs) (hv : CuesValid cs) :
    (detectPauses d cs).Pairwise (fun i j => i.pstart ≤ j.pstart) := by
  induction cs with
  | nil => simp [detectPauses]
  | cons c tail ih =>
    cases tail with
    | nil => simp [detectPauses]
    | cons n rest =>
      rw [detectPauses]
      have hts : CuesSorted (n :: rest) := (List.pairwise_cons.mp hs).2
      have htv : CuesValid (n :: rest) := fun x hx => hv x (by simp [hx])
      refine List.pairwise_append.mpr ⟨?_, ih hts htv, ?_⟩
      · split_ifs <;> simp
      · intro x hx y hy
        have hyb : n.end_time ≤ y.pstart := detect_pstart_lb d n rest hts htv y hy
        have hcn : c.end_time ≤ n.start_time := (List.pairwise_cons.mp hs).1 n (by simp)
        have hnn : n.start_time ≤ n.end_time := (htv n (by simp)).2
        split_ifs at hx with hcond
        · rcases List.mem_singleton.mp hx with rfl
          simp only
          linarith
        · simp at hx

/-- Claim C1: with at least one cue and `min_pause_duration > 0`, the detector
returns exactly the sorted list of intervals `{prev.end_time, next.start_time}`
over adjacent cue pairs whose gap is at least `min_pause_duration`; leading and
trailing silence are never included (every interval lies between the first
cue's end and the last cue's start); in particular cues
`[{0.0,2.0},{2.8,4.0}]` with `min_pause_duration = 0.5` yield `[{2.0,2.8}]`. -/
theorem pauseDetector_spec (cs : List Cue) (d : ℚ) (hne : cs ≠ [])
    (hd : 0 < d) (hs : CuesSorted cs) (hv : CuesValid cs) :
    (detectPauses d cs
        = (cs.zip cs.tail).filterMap
            (fun q => if q.2.start_time - q.1.end_time ≥ d
              then some (PauseInterval.mk q.1.end_time q.2.start_time) else none))
      ∧ (detectPauses d cs).Pairwise (fun i j => i.pstart ≤ j.pstart)
      ∧ (∀ iv ∈ detectPauses d cs,
          (cs.head hne).end_time ≤ iv.pstart ∧ iv.pend ≤ (cs.getLast hne).start_time)
      ∧ detectPauses (1/2) [Cue.mk "a" 0 2, Cue.mk "b" (28/10) 4]
          = [PauseInterval.mk 2 (28/10)] := by
  rcases cs with - | ⟨c, rest⟩
  · exact absurd rfl hne
  · refine ⟨detectPauses_eq_filterMap d _, detect_sorted d _ hs hv, ?_, ?_⟩
    · intro iv hm
      exact ⟨detect_pstart_lb d c rest hs hv iv hm,
             detect_pend_ub d c rest hs hv iv hm⟩
    · rw [detectPauses, detectPauses]
      rw [if_pos (by norm_num)]
      rfl

/-- Concrete instance of claim C1 at the spec's example scenario. -/
theorem pauseDetector_spec_witness :
    detectPauses (1/2) [Cue.mk "a" 0 2, Cue.mk "b" (28/10) 4]
      = [PauseInterval.mk 2 (28/10)] :=
  (pauseDetector_spec [Cue.mk "a" 0 2, Cue.mk "b" (28/10) 4] (1/2)
    (by simp) (by norm_num)
    (by
      constructor
      · intro b hb
        rcases List.mem_singleton.mp hb with rfl
        norm_num
      · simp [CuesSorted])
    (by
      intro x hx
      rcases List.mem_cons.mp hx with rfl | hx2
      · norm_num
      · rcases List.mem_singleton.mp hx2 with rfl
        norm_num)).2.2.2

/-! ### TimingRemapper theorems -/

/-- With a well-formed pause set, the time removed before `t` never exceeds `t`. -/
lemma removedBefore_le_self (t : ℚ) (ps : List PauseInterval)
    (hp : PausesFrom 0 ps) (hs : PausesSorted ps) (ht : 0 ≤ t) :
    removedBefore t ps ≤ t := by
  have h := removedBefore_le t 0 ps hp hs
  rwa [sub_zero, max_eq_right ht] at h

/-- Claim C2: for every cue list and every disjoint sorted pause set, the
remapper produces one entry per cue with
`new_start = original_start - removed_before` and
`new_end = original_end - removed_before` (the `max 0` clamp never bites),
where `removed_before` sums full durations of intervals ending at or before
the cue start plus the overlapping portion up to the cue start; consequently
every entry preserves its cue's duration exactly. -/
theorem timingRemapper_entries_spec (cues : List Cue) (ps : List PauseInterval)
    (hp : PausesFrom 0 ps) (hs : PausesSorted ps)
    (hc : ∀ c ∈ cues, 0 ≤ c.start_time) :
    (remapEntries cues ps).length = cues.length
    ∧ (∀ c ∈ cues, remapCue ps c =
        { original_start := c.start_time
          original_end := c.end_time
          new_start := c.start_time - removedBefore c.start_time ps
          new_end := c.end_time - removedBefore c.start_time ps })
    ∧ (∀ e ∈ remapEntries cues ps,
        e.new_end - e.new_start = e.original_end - e.original_start) := by
  have hclamp : ∀ c ∈ cues,
      max 0 (c.start_time - removedBefore c.start_time ps)
        = c.start_time - removedBefore c.start_time ps := by
    intro c hm
    have h1 : removedBefore c.start_time ps ≤ c.start_time :=
      removedBefore_le_self _ ps hp hs (hc c hm)
    exact max_eq_right (by linarith)
  refine ⟨by simp [remapEntries], ?_, ?_⟩
  · intro c hm
    unfold remapCue
    rw [hclamp c hm]
  · intro e he
    rcases List.mem_map.mp he with ⟨c, hcm, rfl⟩
    unfold remapCue
    simp only
    rw [hclamp c hcm]
    ring

/-- Concrete instance of claim C2 at the spec's example scenario: removing the
pause `{2.0, 2.8}` shifts the second cue to `{2.0, 3.2}`. -/
theorem timingRemapper_entries_spec_witness :
    removedBefore (28/10) [PauseInterval.mk 2 (28/10)] = 8/10
    ∧ remapCue [PauseInterval.mk 2 (28/10)] (Cue.mk "b" (28/10) 4)
        = { original_start := 28/10, original_end := 4,
            new_start := 28/10 - removedBefore (28/10) [PauseInterval.mk 2 (28/10)],
            new_end := 4 - removedBefore (28/10) [PauseInterval.mk 2 (28/10)] } :=
  ⟨by norm_num [removedBefore, pauseRemovedAt],
   (timingRemapper_entries_spec
      [Cue.mk "a" 0 2, Cue.mk "b" (28/10) 4] [PauseInterval.mk 2 (28/10)]
      (by
        intro p hmp
        rcases List.mem_singleton.mp hmp with rfl
        norm_num)
      (by simp [PausesSorted])
      (by
        intro c hmc
        rcases List.mem_cons.mp hmc with rfl | hmc2
        · norm_num
        · rcases List.mem_singleton.mp hmc2 with rfl
          norm_num)).2.1
    (Cue.mk "b" (28/10) 4) (by simp)⟩

/-- The executable monotonicity check agrees with `Chain'` on new starts. -/
lemma monotoneStarts_iff (l : List RemapEntry) :
    monotoneStarts l = true ↔ l.Chain' (fun a b => a.new_start ≤ b.new_start) := by
  induction l with
  | nil => simp [monotoneStarts]
  | cons a l ih =>
    cases l with
    | nil => simp [monotoneStarts]
    | cons b l2 =>
      rw [monotoneStarts, Bool.and_eq_true, decide_eq_true_iff, ih, List.chain'_cons]

/-- Claim C5: whenever `remap` returns a list, consecutive new starts are
monotonically non-decreasing; and whenever the raw entries would be inverted
(a malformed pause set), `remap` fails fast with `TimingInversionError`
instead of returning a reordered list. -/
theorem timingRemapper_monotone_spec (cues : List Cue) (ps : List PauseInterval) :
    (∀ l, remap cues ps = .ok l →
        l.Pairwise (fun a b => a.new_start ≤ b.new_start))
    ∧ (monotoneStarts (remapEntries cues ps) = false →
        remap cues ps = .error .TimingInversionError) := by
  haveI : IsTrans RemapEntry (fun a b => a.new_start ≤ b.new_start) :=
    ⟨fun _ _ _ h1 h2 => le_trans h1 h2⟩
  constructor
  · intro l hl
    unfold remap at hl
    split_ifs at hl with hmono
    · rcases Except.ok.inj hl with rfl
      exact List.chain'_iff_pairwise.mp ((monotoneStarts_iff _).mp hmono)
  · intro hfalse
    unfold remap
    split_ifs with hmono
    · rw [hmono] at hfalse
      cases hfalse
    · rfl

/-- Concrete instance of claim C5: an overlapping (malformed) pause set that
would invert the two cues makes `remap` fail fast with
`TimingInversionError`. -/
theorem timingRemapper_monotone_spec_witness :
    remap [Cue.mk "a" 1 2, Cue.mk "b" 5 6]
        [PauseInterval.mk 2 4, PauseInterval.mk 2 4, PauseInterval.mk 2 4]
      = .error .TimingInversionError :=
  (timingRemapper_monotone_spec [Cue.mk "a" 1 2, Cue.mk "b" 5 6]
      [PauseInterval.mk 2 4, PauseInterval.mk 2 4, PauseInterval.mk 2 4]).2
    (by norm_num [monotoneStarts, remapEntries, remapCue, removedBefore, pauseRemovedAt])

/-! ### Polling error classification: claims C3 and C4 -/

/-- Counterexample to claim C3 as stated: a poll result with remote status
`Failed`, a non-fatal error code, and a message matching the fatal keyword set
(`"connection timed out"` contains `"timed out"`) does NOT terminate — the
`Failed`-status branch inspects only the error code, so the handle keeps
being polled. -/
theorem pollFailedStatus_counterexample :
    msgHasFatalKeyword "connection timed out" = true
    ∧ handleFailedStatus "500" "connection timed out" = PollAction.keepPolling
    ∧ PollAction.keepPolling ≠ PollAction.terminate := by
  refine ⟨by decide, by decide, by decide⟩

/-- Claim C3 (amended): on a `Failed` remote status, polling terminates in the
same tick iff the error code is one of the two fatal codes `720701002` /
`720701001`, regardless of the message and of any retry budget; fatal keyword
matching on the message applies to the API-call-failure branch, where it
terminates polling immediately. -/
theorem pollFailedStatus_amended :
    (∀ code msg, handleFailedStatus code msg = PollAction.terminate ↔
        (code = "720701002" ∨ code = "720701001"))
    ∧ (∀ msg, msgHasFatalKeyword msg = true →
        handleApiFailure msg = PollAction.terminate) := by
  constructor
  · intro code msg
    unfold handleFailedStatus fatalErrorCodes
    constructor
    · intro ht
      by_contra hc
      push_neg at hc
      rw [if_neg (by simp [hc.1, hc.2])] at ht
      cases ht
    · intro hcode
      rw [if_pos (by rcases hcode with rfl | rfl <;> simp)]
  · intro msg hmsg
    unfold handleApiFailure
    rw [if_pos hmsg]

/-- Concrete instance of the amended claim C3: the fatal code `720701002`
terminates at once, and so does an API-call failure whose message contains
`"server error"`. -/
theorem pollFailedStatus_amended_witness :
    handleFailedStatus "720701002" "Access plugin server url timed out"
        = PollAction.terminate
    ∧ handleApiFailure "Internal server error" = PollAction.terminate :=
  ⟨(pollFailedStatus_amended.1 "720701002" "Access plugin server url timed out").mpr
      (Or.inl rfl),
   pollFailedStatus_amended.2 "Internal server error" (by decide)⟩

/-- Counterexample to claim C4 as stated: a polling transport exception whose
text is `"connection timed out"` is terminated immediately (fatal) even though
the claim says it must stay retryable while retry budget remains — the
exception branch consults no budget at all. -/
theorem pollTimeout_counterexample :
    excHasFatalKeyword "connection timed out" = true
    ∧ handleRequestException "connection timed out" = PollAction.terminate
    ∧ PollAction.terminate ≠ PollAction.keepPolling := by
  refine ⟨by decide, by decide, by decide⟩

/-- Claim C4 (amended): a transport-call failure during polling whose text
contains a timeout/connection/network keyword terminates polling immediately
(treated as fatal, independent of any retry budget); only transport errors
without such keywords keep the handle eligible for further polling. -/
theorem pollTimeout_amended :
    (∀ e, excHasFatalKeyword e = true →
        handleRequestException e = PollAction.terminate)
    ∧ (∀ e, excHasFatalKeyword e = false →
        handleRequestException e = PollAction.keepPolling) := by
  constructor
  · intro e he
    unfold handleRequestException
    rw [if_pos he]
  · intro e he
    unfold handleRequestException
    rw [if_neg (by simp [he])]

/-- Concrete instance of the amended claim C4: a timeout-text exception
terminates polling; an unrelated exception keeps polling. -/
theorem pollTimeout_amended_witness :
    handleRequestException "Connection timed out" = PollAction.terminate
    ∧ handleRequestException "invalid json body" = PollAction.keepPolling :=
  ⟨pollTimeout_amended.1 "Connection timed out" (by decide),
   pollTimeout_amended.2 "invalid json body" (by decide)⟩

/-! ### Unique-name generation: claim C6

Embedded from `_generate_unique_project_name` and the segment-id generation in
`src/unnamed/part_007`: a project name is
`f"{base}_{timestamp_ms}_{random_suffix}_{thread_ident % 10000}"` (or with the
prefix `coze_video` when no base name is set); a segment id is
`f"{timestamp_us}_{thread_ident % 100000}_{uuid_hex8}"`. -/

/-- Name generation of `_generate_unique_project_name`: millisecond timestamp,
4-digit random suffix and the last four digits of the thread id, appended to
the base name. -/
def generateUniqueProjectName (base : Option String)
    (timestampMs randomSuffix threadIdent : ℕ) : String :=
  match base with
  | some b =>
      b ++ "_" ++ toString timestampMs ++ "_" ++ toString randomSuffix
        ++ "_" ++ toString (threadIdent % 10000)
  | none =>
      "coze_video" ++ "_" ++ toString timestampMs ++ "_" ++ toString randomSuffix
        ++ "_" ++ toString (threadIdent % 10000)

/-- Segment-id generation: microsecond timestamp, last five digits of the
thread id, and an 8-character random hex suffix. -/
def generateSegmentId (timestampUs threadIdent : ℕ) (randomHex : String) : String :=
  toString timestampUs ++ "_" ++ toString (threadIdent % 100000) ++ "_" ++ randomHex

/-- Counterexample to claim C6 as stated: there is no monotonic counter, and
distinctness is not guaranteed — two concurrently running units on distinct
threads (idents 12345 and 22345) that draw the same millisecond timestamp and
the same 4-digit random suffix receive the SAME draft-project name, because
the name depends on the thread id only through its last four digits. -/
theorem uniqueProjectName_counterexample :
    (12345 : ℕ) ≠ 22345
    ∧ generateUniqueProjectName (some "proj") 1000 5678 12345
        = generateUniqueProjectName (some "proj") 1000 5678 22345 := by
  refine ⟨by decide, rfl⟩

/-- Claim C6 (amended): names and segment ids are derived from a timestamp, a
random suffix and the thread id (no monotonic counter), never from the
user-supplied base name alone — the generated name strictly extends the base —
and they depend on the thread id only through its residue modulo 10^4
(projects) or 10^5 (segments), so units sharing timestamp, random draw and
residue collide: pairwise distinctness of N concurrent units is probabilistic,
not guaranteed. -/
theorem uniqueProjectName_amended :
    (∀ b ts r t t', t % 10000 = t' % 10000 →
        generateUniqueProjectName b ts r t = generateUniqueProjectName b ts r t')
    ∧ (∀ ts t h h', h = h' → ∀ t', t % 100000 = t' % 100000 →
        generateSegmentId ts t h = generateSegmentId ts t' h')
    ∧ (∀ b ts r t,
        b.length < (generateUniqueProjectName (some b) ts r t).length) := by
  refine ⟨?_, ?_, ?_⟩
  · intro b ts r t t' hmod
    cases b <;> simp [generateUniqueProjectName, hmod]
  · intro ts t h h' hh t' hmod
    simp [generateSegmentId, hmod, hh]
  · intro b ts r t
    simp only [generateUniqueProjectName, String.length_append]
    have h1 : 0 < "_".length := by decide
    omega

/-- Concrete instance of the amended claim C6: equal thread-id residues give
equal names, and the generated name is strictly longer than the user-supplied
base. -/
theorem uniqueProjectName_amended_witness :
    generateUniqueProjectName (some "p") 1000 42 2345
        = generateUniqueProjectName (some "p") 1000 42 12345
    ∧ "p".length < (generateUniqueProjectName (some "p") 1000 42 2345).length :=
  ⟨uniqueProjectName_amended.1 (some "p") 1000 42 2345 12345 (by decide),
   uniqueProjectName_amended.2.2 "p" 1000 42 2345⟩

/-! ### MediaTrimmer: claim C7 -/

/-- Terminal outcome of a trim: success with the output path, or
`TrimFailure(source_path, cause)` where `cause` records the failing segment. -/
inductive TrimOutcome where
  | success (output : String)
  | failure (source : String) (cause : ℕ)
deriving DecidableEq, Repr

/-- Path of the intermediate per-segment file for keep-interval `i`. -/
def segmentPath (output : String) (i : ℕ) : String :=
  output ++ ".seg" ++ toString i

/-- Modelled from the spec: the extraction phase of `MediaTrimmer.trim` — the
FFmpeg-invoking Python implementation is not under `src/`. `ok i` is the exit
status of the external tool on keep-interval `i`; extraction runs the
intervals in order, writes one intermediate file per successful extraction,
and stops at the first failure. Returns (all succeeded, files written). -/
def runExtract (ok : ℕ → Bool) (output : String) : ℕ → Bool × List String
  | 0 => (true, [])
  | n + 1 =>
    if (runExtract ok output n).1 then
      if ok n then (true, (runExtract ok output n).2 ++ [segmentPath output n])
      else (false, (runExtract ok output n).2)
    else runExtract ok output n

/-- Remove each file of `toRemove` from the file set `files`. -/
def removeFiles (files toRemove : List String) : List String :=
  files.filter (fun f => decide (f ∉ toRemove))

/-- Modelled from the spec: the contract `MediaTrimmer.trim` — on success the segments are
concatenated into exactly one file at `output` and every intermediate file is
removed; on any sub-extraction failure the trim aborts with
`TrimFailure(source, cause)`, the intermediates are removed and any partial
output is deleted. The second component is the set of files left on disk. -/
def trim (ok : ℕ → Bool) (source : String) (n : ℕ) (output : String) :
    TrimOutcome × List String :=
  if (runExtract ok output n).1 then
    (.success output,
     removeFiles ((runExtract ok output n).2 ++ [output]) (runExtract ok output n).2)
  else
    (.failure source (runExtract ok output n).2.length,
     removeFiles (removeFiles (runExtract ok output n).2 (runExtract ok output n).2)
       [output])

lemma segmentPath_ne (output : String) (i : ℕ) : segmentPath output i ≠ output := by
  intro h
  have hlen := congrArg String.length h
  simp only [segmentPath, String.length_append] at hlen
  have h4 : ".seg".length = 4 := by decide
  omega

/-- The extraction phase succeeds iff every sub-extraction succeeds. -/
lemma runExtract_fst (ok : ℕ → Bool) (output : String) (n : ℕ) :
    (runExtract ok output n).1 = true ↔ ∀ i, i < n → ok i = true := by
  induction n with
  | zero => simp [runExtract]
  | succ n ih =>
    rw [runExtract]
    split_ifs with hb hok
    · constructor
      · intro _ i hi
        rcases Nat.lt_succ_iff_lt_or_eq.mp hi with h | rfl
        · exact (ih.mp hb) i h
        · exact hok
      · intro _
        rfl
    · constructor
      · intro hcontra
        simp at hcontra
      · intro hall
        exact absurd (hall n (Nat.lt_succ_self n)) hok
    · constructor
      · intro h
        exact absurd h hb
      · intro hall
        exact absurd (ih.mpr (fun i hi => hall i (Nat.lt_succ_of_lt hi))) hb

/-- Every file the extraction phase writes is an intermediate segment file. -/
lemma runExtract_snd_mem (ok : ℕ → Bool) (output : String) (n : ℕ) :
    ∀ f ∈ (runExtract ok output n).2, ∃ i, i < n ∧ f = segmentPath output i := by
  induction n with
  | zero => simp [runExtract]
  | succ n ih =>
    intro f hf
    rw [runExtract] at hf
    split_ifs at hf with hb hok
    · have hf2 : f ∈ (runExtract ok output n).2 ++ [segmentPath output n] := hf
      rcases List.mem_append.mp hf2 with h1 | h2
      · rcases ih f h1 with ⟨i, hi, rfl⟩
        exact ⟨i, Nat.lt_succ_of_lt hi, rfl⟩
      · rcases List.mem_singleton.mp h2 with rfl
        exact ⟨n, Nat.lt_succ_self n, rfl⟩
    · have hf2 : f ∈ (runExtract ok output n).2 := hf
      rcases ih f hf2 with ⟨i, hi, rfl⟩
      exact ⟨i, Nat.lt_succ_of_lt hi, rfl⟩
    · rcases ih f hf with ⟨i, hi, rfl⟩
      exact ⟨i, Nat.lt_succ_of_lt hi, rfl⟩

lemma output_not_mem_runExtract (ok : ℕ → Bool) (output : String) (n : ℕ) :
    output ∉ (runExtract ok output n).2 := by
  intro h
  rcases runExtract_snd_mem ok output n output h with ⟨i, -, heq⟩
  exact segmentPath_ne output i heq.symm

lemma removeFiles_self (l : List String) : removeFiles l l = [] := by
  unfold removeFiles
  rw [List.filter_eq_nil_iff]
  intro a ha
  simp [ha]

lemma removeFiles_append_singleton (l : List String) (x : String) (hx : x ∉ l) :
    removeFiles (l ++ [x]) l = [x] := by
  unfold removeFiles
  rw [List.filter_append]
  have h1 : l.filter (fun f => decide (f ∉ l)) = [] := removeFiles_self l
  rw [h1]
  simp [hx]

/-- Claim C7: if any sub-extraction fails, the whole trim aborts with
`TrimFailure(source, cause)` and no file is left on disk (the partial output
is deleted, never half-written); if every sub-extraction succeeds, exactly one
file is written, at `output`; and on every exit path no intermediate
per-segment file survives. -/
theorem mediaTrimmer_spec (ok : ℕ → Bool) (source : String) (n : ℕ)
    (output : String) :
    ((∃ i, i < n ∧ ok i = false) →
        (∃ cause, (trim ok source n output).1 = .failure source cause)
        ∧ (trim ok source n output).2 = [])
    ∧ ((∀ i, i < n → ok i = true) →
        (trim ok source n output).1 = .success output
        ∧ (trim ok source n output).2 = [output])
    ∧ (∀ i, segmentPath output i ∉ (trim ok source n output).2) := by
  have hout := output_not_mem_runExtract ok output n
  refine ⟨?_, ?_, ?_⟩
  · intro ⟨i, hi, hfail⟩
    have hfst : ¬ (runExtract ok output n).1 = true := by
      intro hfst
      rw [(runExtract_fst ok output n).mp hfst i hi] at hfail
      cases hfail
    unfold trim
    rw [if_neg hfst]
    refine ⟨⟨(runExtract ok output n).2.length, rfl⟩, ?_⟩
    rw [removeFiles_self]
    rfl
  · intro hall
    have hfst : (runExtract ok output n).1 = true := (runExtract_fst ok output n).mpr hall
    unfold trim
    rw [if_pos hfst]
    exact ⟨rfl, removeFiles_append_singleton _ _ hout⟩
  · intro i
    unfold trim
    split_ifs with hfst
    · rw [removeFiles_append_singleton _ _ hout]
      intro hmem
      exact segmentPath_ne output i (List.mem_singleton.mp hmem)
    · rw [removeFiles_self]
      simp [removeFiles]

/-- Concrete instance of claim C7: with two keep-intervals where the second
extraction fails, the trim aborts with a `TrimFailure` carrying the source
path and leaves no file; with both succeeding, exactly the output file is
written. -/
theorem mediaTrimmer_spec_witness :
    ((∃ cause, (trim (fun i => decide (i = 0)) "src.mp3" 2 "out.mp3").1
          = .failure "src.mp3" cause)
      ∧ (trim (fun i => decide (i = 0)) "src.mp3" 2 "out.mp3").2 = [])
    ∧ ((trim (fun _ => true) "src.mp3" 2 "out.mp3").1 = .success "out.mp3"
      ∧ (trim (fun _ => true) "src.mp3" 2 "out.mp3").2 = ["out.mp3"]) :=
  ⟨(mediaTrimmer_spec (fun i => decide (i = 0)) "src.mp3" 2 "out.mp3").1
      ⟨1, by decide, by decide⟩,
   (mediaTrimmer_spec (fun _ => true) "src.mp3" 2 "out.mp3").2.1
      (fun _ _ => rfl)⟩

/-! ### Transcription source selection: claim C8 -/

/-- A media source reference: a network-addressable HTTP URL or a local file. -/
inductive MediaRef where
  | httpUrl (u : String)
  | localPath (p : String)
deriving DecidableEq, Repr

/-- One outgoing call of the pause-removal flow of `add_audio`. -/
inductive ServiceCall where
  | asrTranscribe (src : MediaRef)
  | downloadMaterial (src : MediaRef) (dest : String)
  | ffmpegProcess (src : MediaRef)
deriving DecidableEq, Repr

/-- Modelled from the spec: the pause-removal flow of `add_audio` /
`_remove_audio_pauses` — the Python implementation
(`workflow/component/flow_python_implementation.py`) is not under `src/`, only
the fix notes in `src/unnamed/part_000`. The original HTTP URL is saved and
passed to ASR transcription; the audio is downloaded to a local copy which is
used only for FFmpeg processing. -/
def addAudioCalls (audio_url : String) (localCopy : String) : List ServiceCall :=
  [ .asrTranscribe (.httpUrl audio_url),
    .downloadMaterial (.httpUrl audio_url) localCopy,
    .ffmpegProcess (.localPath localCopy) ]

/-- Claim C8: every request sent to the transcription service carries the
original network-addressable source (the HTTP URL of the audio); the path of
the locally-downloaded copy is never passed to the transcription service,
even though the same audio is downloaded locally for media processing. -/
theorem asrReceivesOriginalUrl_spec (audio_url localCopy : String) :
    (∀ c ∈ addAudioCalls audio_url localCopy, ∀ src,
        c = ServiceCall.asrTranscribe src → src = MediaRef.httpUrl audio_url)
    ∧ (∀ p, ServiceCall.asrTranscribe (MediaRef.localPath p)
        ∉ addAudioCalls audio_url localCopy)
    ∧ ServiceCall.ffmpegProcess (MediaRef.localPath localCopy)
        ∈ addAudioCalls audio_url localCopy := by
  refine ⟨?_, ?_, by simp [addAudioCalls]⟩
  · intro c hc src heq
    rcases List.mem_cons.mp hc with rfl | hc2
    · cases heq
      rfl
    · rcases List.mem_cons.mp hc2 with rfl | hc3
      · cases heq
      · rcases List.mem_singleton.mp hc3 with rfl
        cases heq
  · intro p hp
    simp [addAudioCalls] at hp

/-- Concrete instance of claim C8: in a flow for a concrete URL with a
concrete local copy, the ASR call carries the HTTP URL, and no ASR call on the
local copy occurs. -/
theorem asrReceivesOriginalUrl_spec_witness :
    MediaRef.httpUrl "https://example.com/audio.mp3"
        = MediaRef.httpUrl "https://example.com/audio.mp3"
    ∧ ServiceCall.asrTranscribe (MediaRef.localPath "temp_materials/audio.mp3")
        ∉ addAudioCalls "https://example.com/audio.mp3" "temp_materials/audio.mp3" :=
  ⟨(asrReceivesOriginalUrl_spec "https://example.com/audio.mp3"
        "temp_materials/audio.mp3").1
      (ServiceCall.asrTranscribe (MediaRef.httpUrl "https://example.com/audio.mp3"))
      (by simp [addAudioCalls]) _ rfl,
   (asrReceivesOriginalUrl_spec "https://example.com/audio.mp3"
        "temp_materials/audio.mp3").2.1 "temp_materials/audio.mp3"⟩

/-! ### JobSubmitter bounded concurrency: claim C9 -/

/-- State of the submission scheduler: queued item ids in order, submission
calls currently in flight, and items whose submission call has returned. -/
structure SubmitState where
  pending : List ℕ
  inFlight : List ℕ
  finished : List ℕ
deriving DecidableEq, Repr

/-- Modelled from the spec: the bounded-concurrency submission loop of the
async batch workflow (`feishu_async_batch_workflow.py`, not under `src/`).
A queued item may start only while fewer than `maxConcurrent` calls are in
flight; a call in flight may return at any time. -/
inductive SubmitStep (maxConcurrent : ℕ) : SubmitState → SubmitState → Prop where
  | start (s : SubmitState) (i : ℕ) (rest : List ℕ) :
      s.inFlight.length < maxConcurrent →
      s.pending = i :: rest →
      SubmitStep maxConcurrent s ⟨rest, i :: s.inFlight, s.finished⟩
  | finish (s : SubmitState) (i : ℕ) :
      i ∈ s.inFlight →
      SubmitStep maxConcurrent s ⟨s.pending, s.inFlight.erase i, i :: s.finished⟩

/-- States reachable from the all-queued start state. -/
def SubmitReachable (maxConcurrent : ℕ) (items : List ℕ) (s : SubmitState) : Prop :=
  Relation.ReflTransGen (SubmitStep maxConcurrent) ⟨items, [], []⟩ s

/-- The five states reachable with `maxConcurrent = 1` and items `[1, 2]`. -/
def TwoItemInv (s : SubmitState) : Prop :=
  s = ⟨[1, 2], [], []⟩ ∨ s = ⟨[2], [1], []⟩ ∨ s = ⟨[2], [], [1]⟩
    ∨ s = ⟨[], [2], [1]⟩ ∨ s = ⟨[], [], [2, 1]⟩

lemma twoItemInv_step {s t : SubmitState} (hinv : TwoItemInv s)
    (hstep : SubmitStep 1 s t) : TwoItemInv t := by
  cases hstep with
  | start i rest hlt hp =>
    rcases hinv with rfl | rfl | rfl | rfl | rfl
    · injection hp with h1 h2
      subst h1
      subst h2
      right
      left
      rfl
    · exact absurd hlt (by decide)
    · injection hp with h1 h2
      subst h1
      subst h2
      right
      right
      right
      left
      rfl
    · cases hp
    · cases hp
  | finish i hm =>
    rcases hinv with rfl | rfl | rfl | rfl | rfl
    · simp at hm
    · rcases List.mem_singleton.mp hm with rfl
      right
      right
      left
      rfl
    · simp at hm
    · rcases List.mem_singleton.mp hm with rfl
      right
      right
      right
      right
      rfl
    · simp at hm

lemma twoItemInv_reachable {s : SubmitState} (h : SubmitReachable 1 [1, 2] s) :
    TwoItemInv s := by
  induction h with
  | refl => left; rfl
  | tail hprev hstep ih => exact twoItemInv_step ih hstep

/-- Claim C9: the submitter keeps at most `maxConcurrent` submission calls in
flight in every reachable state, and with `maxConcurrent = 1` and two work
items the second item's call is in flight only after the first item's call
has returned. -/
theorem jobSubmitter_bounded_spec (items : List ℕ) (m : ℕ) (hm : 1 ≤ m) :
    (∀ s, SubmitReachable m items s → s.inFlight.length ≤ m)
    ∧ (∀ s, SubmitReachable 1 [1, 2] s → 2 ∈ s.inFlight → 1 ∈ s.finished) := by
  constructor
  · intro s hs
    induction hs with
    | refl => simp
    | tail hprev hstep ih =>
      cases hstep with
      | start i rest hlt hp => simpa using hlt
      | finish i hmem =>
        have := List.length_erase_of_mem hmem
        simp only
        omega
  · intro s hs h2
    rcases twoItemInv_reachable hs with rfl | rfl | rfl | rfl | rfl
    · simp at h2
    · simp at h2
    · simp at h2
    · simp
    · simp at h2

/-- Concrete instance of claim C9: the state with item 2 in flight is reached
only with item 1 already finished, along the trace
start(1) ; finish(1) ; start(2). -/
theorem jobSubmitter_bounded_spec_witness :
    1 ∈ (SubmitState.mk [] [2] [1]).finished := by
  have r1 : SubmitStep 1 ⟨[1, 2], [], []⟩ ⟨[2], [1], []⟩ :=
    .start ⟨[1, 2], [], []⟩ 1 [2] (by decide) rfl
  have r2 : SubmitStep 1 ⟨[2], [1], []⟩ ⟨[2], [], [1]⟩ :=
    .finish ⟨[2], [1], []⟩ 1 (by decide)
  have r3 : SubmitStep 1 ⟨[2], [], [1]⟩ ⟨[], [2], [1]⟩ :=
    .start ⟨[2], [], [1]⟩ 2 [] (by decide) rfl
  have hreach : SubmitReachable 1 [1, 2] ⟨[], [2], [1]⟩ :=
    Relation.ReflTransGen.tail
      (Relation.ReflTransGen.tail (Relation.ReflTransGen.tail .refl r1) r2) r3
  exact (jobSubmitter_bounded_spec [1, 2] 1 (le_refl 1)).2 ⟨[], [2], [1]⟩ hreach
    (by decide)

/-! ### Automatic retry budget: claim C10 -/

/-- Status of one work item in the retry loop. -/
inductive TaskStatus where
  | active
  | succeeded
  | failedTerminal
deriving DecidableEq, Repr

/-- Retry-loop state: retries consumed, execution attempts started, status. -/
structure RetryState where
  retries : ℕ
  attempts : ℕ
  status : TaskStatus
deriving DecidableEq, Repr

/-- Modelled from the spec: the automatic retry policy of the async batch
processor — `src/unnamed/part_012` documents that failed tasks are retried
automatically 3 times, but the retry loop's Python source is not under
`src/`. An active item may succeed, may fail retryably and consume one retry
while fewer than 3 retries are used, or becomes terminal on a failure once
3 retries are used. -/
inductive RetryStep : RetryState → RetryState → Prop where
  | succeed (s : RetryState) :
      s.status = .active → RetryStep s ⟨s.retries, s.attempts, .succeeded⟩
  | failRetry (s : RetryState) :
      s.status = .active → s.retries < 3 →
      RetryStep s ⟨s.retries + 1, s.attempts + 1, .active⟩
  | failFinal (s : RetryState) :
      s.status = .active → 3 ≤ s.retries →
      RetryStep s ⟨s.retries, s.attempts, .failedTerminal⟩

/-- States reachable from the first execution attempt. -/
def RetryReachable (s : RetryState) : Prop :=
  Relation.ReflTransGen RetryStep ⟨0, 1, .active⟩ s

lemma retry_inv {s : RetryState} (h : RetryReachable s) :
    s.retries ≤ 3 ∧ s.attempts = s.retries + 1 := by
  induction h with
  | refl => exact ⟨by decide, rfl⟩
  | tail hprev hstep ih =>
    obtain ⟨ih1, ih2⟩ := ih
    cases hstep with
    | succeed hact => exact ⟨ih1, ih2⟩
    | failRetry hact hlt =>
      refine ⟨by simp only; omega, ?_⟩
      simp only
      omega
    | failFinal hact hge => exact ⟨ih1, ih2⟩

/-- Claim C10: a work item is retried at most 3 times (so at most 4 execution
attempts ever start), a terminal failed item never steps again, and from a
state with 3 retries used no step increases the retry count — there is never
a fourth retry. -/
theorem retryPolicy_spec :
    (∀ s, RetryReachable s → s.retries ≤ 3 ∧ s.attempts ≤ 4)
    ∧ (∀ s t, s.status = TaskStatus.failedTerminal → ¬ RetryStep s t)
    ∧ (∀ (a : ℕ) (t : RetryState), RetryStep ⟨3, a, TaskStatus.active⟩ t →
        t.retries = 3) := by
  refine ⟨?_, ?_, ?_⟩
  · intro s hs
    have h := retry_inv hs
    exact ⟨h.1, by omega⟩
  · intro s t hterm hstep
    cases hstep with
    | succeed hact => rw [hterm] at hact; cases hact
    | failRetry hact hlt => rw [hterm] at hact; cases hact
    | failFinal hact hge => rw [hterm] at hact; cases hact
  · intro a t hstep
    cases hstep with
    | succeed hact => rfl
    | failRetry hact hlt => exact absurd hlt (by simp)
    | failFinal hact hge => rfl

/-- Concrete instance of claim C10: after the initial attempt and three
retries the item is terminal with 4 attempts total, the terminal state admits
no further step, and no step from a 3-retry state yields a fourth retry. -/
theorem retryPolicy_spec_witness :
    ((3 : ℕ) ≤ 3 ∧ (4 : ℕ) ≤ 4)
    ∧ ¬ RetryStep ⟨3, 4, TaskStatus.failedTerminal⟩ ⟨4, 5, TaskStatus.active⟩ := by
  have r1 : RetryStep ⟨0, 1, .active⟩ ⟨1, 2, .active⟩ :=
    .failRetry ⟨0, 1, .active⟩ rfl (by decide)
  have r2 : RetryStep ⟨1, 2, .active⟩ ⟨2, 3, .active⟩ :=
    .failRetry ⟨1, 2, .active⟩ rfl (by decide)
  have r3 : RetryStep ⟨2, 3, .active⟩ ⟨3, 4, .active⟩ :=
    .failRetry ⟨2, 3, .active⟩ rfl (by decide)
  have r4 : RetryStep ⟨3, 4, .active⟩ ⟨3, 4, .failedTerminal⟩ :=
    .failFinal ⟨3, 4, .active⟩ rfl (by decide)
  have hreach : RetryReachable ⟨3, 4, .failedTerminal⟩ :=
    Relation.ReflTransGen.tail
      (Relation.ReflTransGen.tail
        (Relation.ReflTransGen.tail (Relation.ReflTransGen.tail .refl r1) r2) r3) r4
  exact ⟨retryPolicy_spec.1 ⟨3, 4, .failedTerminal⟩ hreach,
         retryPolicy_spec.2.1 ⟨3, 4, .failedTerminal⟩ ⟨4, 5, .active⟩ rfl⟩

end PipelineVerif
